import Mathlib

/-!
Verification development for the SHL assessment recommender
(`main.py`, class `IntelligentRecommender`).

Modelling conventions:
* Strings are handled as `String` / `List Char`; `str.lower()` is modelled by
  mapping `Char.toLower` (the catalog and the rule tables are ASCII).
* The sentence-transformer embedding plus `cosine_similarity` against the
  corpus matrix is a black-box deterministic collaborator; it is modelled by a
  parameter `sim : String → List Rat` where `sim q` is the row of cosine
  similarities of query `q` against every corpus vector
  (`cosine_similarity(model.encode([q]), assessment_embeddings)[0]`).
  Pairwise cosine against a *subset* of rows (the re-scoring pass of
  `_validate_and_rank_locally`) therefore reads the same values at the
  candidates' indices.
* Python floats are modelled by exact rationals (`Rat`); decimal literals
  such as `0.60` denote the exact decimal value.
* `np.argsort(x)[::-1]` is modelled as the reverse of a *stable* ascending
  argsort (insertion sort over the index range).  For pairwise-distinct
  similarities this is exactly numpy's behaviour; on ties numpy's default
  quicksort order is unspecified, and the stable model is the canonical
  deterministic choice (numpy's documented `stable` kind).
* Python's `list.sort(key=..., reverse=True)` (Timsort) is stable; it is
  modelled by `List.insertionSort` with the reflexive "greater or equal
  score" relation, which is the canonical stable descending sort.
* Fallible code returns `Except String`: `raise ValueError` on an empty
  query, and the `TypeError` that `candidate['duration'] > max_duration`
  raises when the duration is missing (`None`).
-/

namespace SHLRec

/-- Whitespace class of Python's `\s` (ASCII range). -/
def isSpaceChar (c : Char) : Bool :=
  c = ' ' || c = '\t' || c = '\n' || c = '\r' || c = '\x0b' || c = '\x0c'

/-- Word-character class of Python's `\w` (ASCII range), used for `\b`. -/
def isWordChar (c : Char) : Bool :=
  c.isAlpha || c.isDigit || c = '_'

/-- Does `nd` occur at the very start of the second list? -/
def charsStart : List Char → List Char → Bool
  | [], _ => true
  | _ :: _, [] => false
  | a :: as, b :: bs => a == b && charsStart as bs

/-- Python's substring test `nd in hay` on character lists. -/
def charsContain (nd : List Char) : List Char → Bool
  | [] => nd.isEmpty
  | c :: rest => charsStart nd (c :: rest) || charsContain nd rest

/-- Python's `needle in hay` on strings. -/
def substrIn (needle hay : String) : Bool :=
  charsContain needle.toList hay.toList

/-- Python's `str.lower()` (ASCII; the rule tables and tests are ASCII). -/
def lowerStr (s : String) : String :=
  String.mk (s.toList.map Char.toLower)

/-- Numeric value of a digit run, i.e. Python's `int(...)` on a digit string. -/
def natOfDigits (l : List Char) : Nat :=
  l.foldl (fun n c => n * 10 + (c.toNat - '0'.toNat)) 0

/-- Python's `str.strip()`: drop leading and trailing whitespace. -/
def trimChars (l : List Char) : List Char :=
  ((l.dropWhile isSpaceChar).reverse.dropWhile isSpaceChar).reverse

/-- Replace each maximal whitespace run by a single `' '`
(the `re.sub(r'\s+', ' ', ...)` normalisation). -/
def collapseWs : List Char → List Char
  | [] => []
  | [c] => if isSpaceChar c then [' '] else [c]
  | c :: c2 :: rest =>
    if isSpaceChar c then
      if isSpaceChar c2 then collapseWs (c2 :: rest)
      else ' ' :: collapseWs (c2 :: rest)
    else c :: collapseWs (c2 :: rest)

/-! ### Keyword tables (`self.feature_keywords` and the V7 stop-word list) -/

def softKeywords : List String :=
  ["collaborat", "team", "teamwork", "lead", "manag", "supervisor",
   "personality", "behaviour", "communication", "opq"]

def levelKeywords : List String :=
  ["entry", "junior", "graduate", "intern", "senior", "lead", "expert", "principal"]

def durationKeywords : List String :=
  ["minute", "min", "mins", "less", "maximum", "max", "under", "within",
   "duration", "time"]

def nonSkillWords : List String :=
  ["looking", "to", "hire", "who", "are", "proficient", "in", "need", "an",
   "assessment", "package", "that", "can", "test", "all", "skills", "with",
   "for", "a"]

/-! ### Duration regex scans (`_extract_features_locally`, patterns (a), (b))

Pattern (a): `(\d+)\s*(?:minute|min|minutes|mins).*?(less|maximum|max|under|within)`
Pattern (b): `(?:less|maximum|max|under|within).*?(\d+)\s*(?:minute|min|minutes|mins)`
run over the lower-cased query with `re.findall`; only the first match's digit
group is used.  The alternation `minute|min|minutes|mins` commits to `minute`
when that literal is present, else to `min` (the remaining branches are
shadowed); `.` does not cross a newline. -/

/-- Consume the unit alternation `minute|min|minutes|mins` at the head
(first-branch-wins, so effectively `minute` else `min`). -/
def matchUnit (l : List Char) : Option (List Char) :=
  if charsStart "minute".toList l then some (l.drop 6)
  else if charsStart "min".toList l then some (l.drop 3)
  else none

/-- Consume the keyword alternation `less|maximum|max|under|within` at the head. -/
def matchDurKeyword (l : List Char) : Option (List Char) :=
  if charsStart "less".toList l then some (l.drop 4)
  else if charsStart "maximum".toList l then some (l.drop 7)
  else if charsStart "max".toList l then some (l.drop 3)
  else if charsStart "under".toList l then some (l.drop 5)
  else if charsStart "within".toList l then some (l.drop 6)
  else none

/-- Is there a duration keyword further on, reachable by `.*?`
(i.e. without crossing a newline)? -/
def findKeywordInLine : List Char → Bool
  | [] => false
  | c :: rest =>
    if c = '\n' then false
    else (matchDurKeyword (c :: rest)).isSome || findKeywordInLine rest

/-- Attempt pattern (a) anchored at the current position:
digits, `\s*`, unit, then a keyword later on the same line. -/
def tryDurA (l : List Char) : Option Nat :=
  match l with
  | [] => none
  | c :: _ =>
    if c.isDigit then
      let digits := l.takeWhile Char.isDigit
      let r1 := l.dropWhile Char.isDigit
      let r2 := r1.dropWhile isSpaceChar
      match matchUnit r2 with
      | some r3 => if findKeywordInLine r3 then some (natOfDigits digits) else none
      | none => none
    else none

/-- First (leftmost) match of pattern (a): the digit group of
`duration_matches[0]`. -/
def findDurationA : List Char → Option Nat
  | [] => none
  | c :: rest =>
    match tryDurA (c :: rest) with
    | some n => some n
    | none => findDurationA rest

/-- Attempt `(\d+)\s*(?:minute|min|minutes|mins)` anchored at the current
position; returns the digit group. -/
def tryDigitsUnit (l : List Char) : Option Nat :=
  match l with
  | [] => none
  | c :: _ =>
    if c.isDigit then
      let digits := l.takeWhile Char.isDigit
      let r1 := l.dropWhile Char.isDigit
      let r2 := r1.dropWhile isSpaceChar
      match matchUnit r2 with
      | some _ => some (natOfDigits digits)
      | none => none
    else none

/-- Scan `.*?(\d+)\s*unit` within the current line: the non-greedy `.*?`
extends position by position (never across a newline) until the digits+unit
tail matches. -/
def scanDigitsUnitInLine : List Char → Option Nat
  | [] => none
  | c :: rest =>
    if c = '\n' then none
    else
      match tryDigitsUnit (c :: rest) with
      | some n => some n
      | none => scanDigitsUnitInLine rest

/-- Attempt pattern (b) anchored at the current position. -/
def tryDurB (l : List Char) : Option Nat :=
  match matchDurKeyword l with
  | some r => scanDigitsUnitInLine r
  | none => none

/-- First (leftmost) match of pattern (b): the digit group of
`duration_less_than[0]`. -/
def findDurationB : List Char → Option Nat
  | [] => none
  | c :: rest =>
    match tryDurB (c :: rest) with
    | some n => some n
    | none => findDurationB rest

/-! ### Whole-word keyword removal (`re.sub(r'\b(w1|w2|...)\b', '', q, IGNORECASE)`)

A match needs a word boundary before the keyword (start of text, or a
non-word character just before) and after it (end of text, or a non-word
character just after); the alternation tries the words in list order; the
scan is leftmost and non-overlapping, boundaries being judged on the
original text.  Every table word starts and ends with a word character. -/

/-- Does word `w` (lower-case) match at the head (case-insensitively), with a
word boundary after it? -/
def wordHere (w : List Char) (l : List Char) : Bool :=
  ((l.take w.length).map Char.toLower == w) &&
    (match l.drop w.length with
     | [] => true
     | c :: _ => !(isWordChar c))

/-- First word of the alternation matching at the head; returns its length. -/
def matchWordAt (ws : List (List Char)) (l : List Char) : Option Nat :=
  ws.findSome? (fun w => if wordHere w l then some w.length else none)

/-- Scan of `re.sub(pattern, '', text)`.  `bnd` says whether a word boundary
holds before the current position.  `fuel` only serves termination; with
`fuel = l.length` it never runs out, since every table word is non-empty. -/
def subWordsAux (ws : List (List Char)) : Nat → Bool → List Char → List Char
  | 0, _, l => l
  | _ + 1, _, [] => []
  | fuel + 1, bnd, c :: rest =>
    match (if bnd then matchWordAt ws (c :: rest) else none) with
    | some n => subWordsAux ws fuel false ((c :: rest).drop n)
    | none => c :: subWordsAux ws fuel (!(isWordChar c)) rest

/-- Remove every whole-word occurrence of the table words from `l`. -/
def subWords (ws : List (List Char)) (l : List Char) : List Char :=
  subWordsAux ws l.length true l

/-! ### Feature extraction (`_extract_features_locally`) -/

/-- Structured intent derived from the raw query (the `features` dict). -/
structure Features where
  soft_skill_requested : Bool
  role_level : String
  max_duration : Option Nat
  deriving Repr, DecidableEq

/-- Stage 1: extract `features` and the cleaned tech-only query string. -/
def extractFeatures (query : String) : Features × String :=
  let ql := lowerStr query
  let qlist := ql.toList
  let soft := softKeywords.any (fun w => substrIn w ql)
  let role_level :=
    if levelKeywords.any (fun w => substrIn w ql) then
      if ["entry", "junior", "graduate", "intern"].any (fun w => substrIn w ql) then "entry"
      else if ["senior", "lead", "expert", "principal"].any (fun w => substrIn w ql) then "senior"
      else "mid"
    else "mid"
  let max_duration :=
    match findDurationA qlist with
    | some n => some n
    | none => findDurationB qlist
  let noise := (softKeywords ++ levelKeywords ++ durationKeywords).map String.toList
  let c1 := subWords noise query.toList
  let c2 := subWords (nonSkillWords.map String.toList) c1
  let c3 := trimChars (collapseWs c2)
  let cleaned := if c3.isEmpty then query else String.mk c3
  (⟨soft, role_level, max_duration⟩, cleaned)

/-! ### Query planning (`_parse_tech_queries`)

`re.split(r',\s*|\s+and\s+', s, flags=IGNORECASE)`: a delimiter is either a
comma followed by greedy whitespace, or whitespace, the word `and`
(case-insensitive), and whitespace.  The two branches are distinguished by
their first character, so alternation order never matters. -/

/-- Tail of the `\s+and\s+` delimiter: the word `and` (case-insensitive)
followed by mandatory whitespace; returns the remainder. -/
def tryAndSplitCore : List Char → Option (List Char)
  | a :: n :: d :: r2 =>
    if a.toLower = 'a' && n.toLower = 'n' && d.toLower = 'd' then
      if (r2.takeWhile isSpaceChar).isEmpty then none
      else some (r2.dropWhile isSpaceChar)
    else none
  | _ => none

/-- Attempt the delimiter `\s+and\s+` at the current position; on success
return the remainder after the delimiter. -/
def tryAndSplit (l : List Char) : Option (List Char) :=
  if (l.takeWhile isSpaceChar).isEmpty then none
  else tryAndSplitCore (l.dropWhile isSpaceChar)

theorem length_dropWhile_sp_le (p : Char → Bool) (l : List Char) :
    (l.dropWhile p).length ≤ l.length :=
  (List.dropWhile_sublist _).length_le

theorem length_dropWhile_sp_lt {l : List Char}
    (h : ¬(l.takeWhile isSpaceChar).isEmpty = true) :
    (l.dropWhile isSpaceChar).length < l.length := by
  rcases l with _ | ⟨c, rest⟩
  · simp at h
  · by_cases hc : isSpaceChar c
    · simp only [List.dropWhile_cons, hc, if_true]
      exact Nat.lt_succ_of_le (length_dropWhile_sp_le _ _)
    · simp [List.takeWhile_cons, hc] at h

theorem tryAndSplitCore_length {l r : List Char} (h : tryAndSplitCore l = some r) :
    r.length ≤ l.length := by
  rcases l with _ | ⟨a, _ | ⟨n, _ | ⟨d, r3⟩⟩⟩ <;> simp [tryAndSplitCore] at h
  obtain ⟨-, -, hr⟩ := h
  subst hr
  have := length_dropWhile_sp_le isSpaceChar r3
  simp only [List.length_cons]
  omega

theorem tryAndSplit_length {l r : List Char} (h : tryAndSplit l = some r) :
    r.length < l.length := by
  unfold tryAndSplit at h
  by_cases hsp : (l.takeWhile isSpaceChar).isEmpty = true
  · rw [if_pos hsp] at h; simp at h
  · rw [if_neg hsp] at h
    exact Nat.lt_of_le_of_lt (tryAndSplitCore_length h) (length_dropWhile_sp_lt hsp)

/-- Scan of `re.split`: `acc` holds the current piece reversed.  `fuel` only
serves termination: every step strictly shortens the text, so `fuel =
l.length` never runs out (the fuel-exhausted branch is unreachable then). -/
def splitDelimsAux : Nat → List Char → List Char → List (List Char)
  | _, acc, [] => [acc.reverse]
  | 0, acc, l => [acc.reverse ++ l]
  | fuel + 1, acc, c :: rest =>
    if c = ',' then acc.reverse :: splitDelimsAux fuel [] (rest.dropWhile isSpaceChar)
    else
      match tryAndSplit (c :: rest) with
      | some r => acc.reverse :: splitDelimsAux fuel [] r
      | none => splitDelimsAux fuel (c :: acc) rest

/-- Scan of `re.split` over the whole text. -/
def splitDelims (acc : List Char) (l : List Char) : List (List Char) :=
  splitDelimsAux l.length acc l

/-- Stage 2 helper `_parse_tech_queries`: split, strip each piece, drop empty
pieces, and fall back to the whole input when nothing is left. -/
def parseTechQueries (s : String) : List String :=
  let pieces := ((splitDelims [] s.toList).map trimChars).filter (fun p => !p.isEmpty)
  if pieces.isEmpty then [s] else pieces.map String.mk

/-! ### Retrieval (`recommend`, STEP 2)

`np.argsort(similarities)[::-1][:k]` is modelled by a stable ascending
argsort over the index range, reversed, truncated to `k` (see the header
note on ties). -/

/-- Ascending comparison of two corpus indices by their similarity. -/
def simLe (s : List Rat) (i j : Nat) : Prop :=
  s.getD i 0 ≤ s.getD j 0

instance (s : List Rat) : DecidableRel (simLe s) :=
  fun i j => inferInstanceAs (Decidable (_ ≤ _))

instance (s : List Rat) : IsTotal Nat (simLe s) :=
  ⟨fun _ _ => le_total _ _⟩

instance (s : List Rat) : IsTrans Nat (simLe s) :=
  ⟨fun _ _ _ => le_trans⟩

/-- Stable ascending argsort of the similarity row (`np.argsort`). -/
def argsortAsc (s : List Rat) : List Nat :=
  List.insertionSort (simLe s) (List.range s.length)

/-- Hit list of one retrieval pass: `np.argsort(sims)[::-1][:k]`. -/
def topIndices (s : List Rat) (k : Nat) : List Nat :=
  (argsortAsc s).reverse.take k

/-- One merge step on the `all_candidates` dict, keyed by `doc_index`
(insertion order preserved; an existing key keeps its position and takes the
max of the similarities). -/
def insertOrMax (m : List (Nat × Rat)) (idx : Nat) (s : Rat) : List (Nat × Rat) :=
  if m.any (fun p => p.1 == idx) then
    m.map (fun p => if p.1 == idx then (p.1, max p.2 s) else p)
  else m ++ [(idx, s)]

/-- One retrieval pass: fold the hit list into the candidate map. -/
def runPass (m : List (Nat × Rat)) (sims : List Rat) (k : Nat) : List (Nat × Rat) :=
  (topIndices sims k).foldl (fun acc idx => insertOrMax acc idx (sims.getD idx 0)) m

/-- All retrieval passes in order (the per-sub-query loop followed by the
full-query pass, written as one fold over the pass list). -/
def runPasses (m : List (Nat × Rat)) (passes : List (List Rat × Nat)) : List (Nat × Rat) :=
  passes.foldl (fun acc p => runPass acc p.1 p.2) m

/-- Pass list of `recommend`: one `(similarity row, k)` pass per sub-query
with `k_per_query = max(10, top_k // len(tech_queries) + 2)`, then the
full-query pass with `top_k` hits. -/
def passesOf (sim : String → List Rat) (techQueries : List String) (query : String)
    (top_k : Nat) : List (List Rat × Nat) :=
  let k_per_query := max 10 (top_k / techQueries.length + 2)
  techQueries.map (fun q => (sim q, k_per_query)) ++ [(sim query, top_k)]

/-- Candidate map of `recommend` after all retrieval passes. -/
def retrieveCandidates (sim : String → List Rat) (techQueries : List String)
    (query : String) (top_k : Nat) : List (Nat × Rat) :=
  runPasses [] (passesOf sim techQueries query top_k)

/-! ### Data model -/

/-- Catalog record (the fields `main.py` reads). -/
structure Assessment where
  name : String
  description : String
  url : String
  test_type : List String
  duration : Option Int
  deriving Repr, DecidableEq

/-- Request-scoped candidate: the assessment joined with
`context_similarity` and `doc_index` (the extra dict keys). -/
structure Candidate where
  assessment : Assessment
  context_similarity : Rat
  doc_index : Nat
  deriving Repr, DecidableEq

/-- Candidate together with its `final_score`. -/
structure Scored where
  candidate : Candidate
  final_score : Rat
  deriving Repr, DecidableEq

/-- Return value of `recommend` (the `recommendations`/`reasoning` dict). -/
structure RankOutput where
  recommendations : List Assessment
  reasoning : String
  deriving Repr, DecidableEq

/-! ### Ranking (`_validate_and_rank_locally`) -/

def collabKeywords : List String :=
  ["personality", "behaviour", "communication", "team", "opq"]

/-- Soft-skill flag of a candidate document (`is_soft_skill_doc`):
sequentially set to `1.0` by the keyword test and by the test-type tag. -/
def isSoftSkillDoc (a : Assessment) : Rat :=
  let name_lower := lowerStr a.name
  let desc_lower := lowerStr a.description
  let s0 : Rat := 0.0
  let s1 : Rat :=
    if collabKeywords.any (fun kw => substrIn kw name_lower || substrIn kw desc_lower) then 1.0
    else s0
  let s2 : Rat := if a.test_type.contains "Personality & Behaviour" then 1.0 else s1
  s2

/-- Role-level match signal (`level_score`), baseline `0.5`. -/
def levelScore (features : Features) (a : Assessment) : Rat :=
  let name_lower := lowerStr a.name
  if features.role_level = "entry" then
    if substrIn "entry" name_lower then 1.0
    else if substrIn "advanced" name_lower || substrIn "senior" name_lower then 0.0
    else 0.5
  else if features.role_level = "senior" then
    if substrIn "entry" name_lower then 0.0
    else if substrIn "advanced" name_lower || substrIn "senior" name_lower then 1.0
    else 0.5
  else 0.5

/-- Weighted multi-signal score of one candidate, with the conditional
multiplicative soft-skill boost (`final_score *= 1.10`; the float condition
`and is_soft_skill_doc` is truthiness, i.e. the flag is non-zero). -/
def mkScored (features : Features) (c : Candidate) (tech_sim : Rat) : Scored :=
  let soft := isSoftSkillDoc c.assessment
  let lvl := levelScore features c.assessment
  let base := tech_sim * 0.60 + soft * 0.20 + c.context_similarity * 0.10 + lvl * 0.10
  let final_score := if features.soft_skill_requested ∧ soft ≠ 0 then base * 1.10 else base
  ⟨c, final_score⟩

/-- Exact message of the `TypeError` Python raises when
`candidate['duration'] > max_duration` compares `None` with an `int`. -/
def durTypeErr : String :=
  "TypeError: '>' not supported between instances of 'NoneType' and 'int'"

/-- Loop body of STAGE 4: hard duration filter, then weighted scoring.  A
missing duration reaching the comparison with a set `max_duration` raises. -/
def rankLoop (features : Features) : List (Candidate × Rat) → Except String (List Scored)
  | [] => .ok []
  | (c, ts) :: rest =>
    match features.max_duration with
    | some maxd =>
      match c.assessment.duration with
      | none => .error durTypeErr
      | some dur =>
        if dur > (maxd : Int) then rankLoop features rest
        else
          match rankLoop features rest with
          | .error e => .error e
          | .ok tail => .ok (mkScored features c ts :: tail)
    | none =>
      match rankLoop features rest with
      | .error e => .error e
      | .ok tail => .ok (mkScored features c ts :: tail)

/-- Descending score order used by
`scored_candidates.sort(key=..., reverse=True)`; the sort is stable. -/
def scoreGe (a b : Scored) : Prop :=
  b.final_score ≤ a.final_score

instance : DecidableRel scoreGe :=
  fun _ _ => inferInstanceAs (Decidable (_ ≤ _))

instance : IsTotal Scored scoreGe :=
  ⟨fun _ _ => le_total _ _⟩

instance : IsTrans Scored scoreGe :=
  ⟨fun _ _ _ h1 h2 => le_trans h2 h1⟩

/-- Stage 3/4 (`_validate_and_rank_locally`): re-score against the tech-only
query (pairwise cosine against the candidate rows, i.e. `sim cleaned` at each
candidate's index), filter, score, sort stably by descending score, truncate
to `final_k` and strip the internal keys. -/
def validateAndRank (sim : String → List Rat) (features : Features)
    (candidates : List Candidate) (cleaned : String) (final_k : Nat) :
    Except String RankOutput :=
  let techSims := candidates.map (fun c => (sim cleaned).getD c.doc_index 0)
  match rankLoop features (candidates.zip techSims) with
  | .error e => .error e
  | .ok scored =>
    let sorted := List.insertionSort scoreGe scored
    let total := candidates.length
    let removed := candidates.length - scored.length
    let passed := scored.length
    let reasoning := "Local Validation Log: Processed " ++ toString total ++
      " candidates. Filtered " ++ toString removed ++ " for duration. Re-ranked " ++
      toString passed ++
      " using a multi-signal score (60% tech, 20% soft, 10% context, 10% level)."
    .ok ⟨(sorted.take final_k).map (fun sc => sc.candidate.assessment), reasoning⟩

/-- Placeholder record for an out-of-range catalog access. -/
def emptyAssessment : Assessment :=
  ⟨"", "", "", [], none⟩

/-- Sub-query list of a request: `_parse_tech_queries` applied to the
cleaned tech-only string. -/
def techQueriesOf (query : String) : List String :=
  parseTechQueries (extractFeatures query).2

/-- Candidate list of a request: the values of `all_candidates` in
insertion order (`list(all_candidates.values())`), each joining the catalog
record with its merged similarity and `doc_index`. -/
def candidatesOf (sim : String → List Rat) (assessments : List Assessment)
    (query : String) (top_k : Nat) : List Candidate :=
  (retrieveCandidates sim (techQueriesOf query) query top_k).map
    (fun p => Candidate.mk (assessments.getD p.1 emptyAssessment) p.2 p.1)

/-- Candidates zipped with their tech-only similarities, exactly as STAGE 4
iterates them. -/
def pairsOf (sim : String → List Rat) (assessments : List Assessment)
    (query : String) (top_k : Nat) : List (Candidate × Rat) :=
  let candidates := candidatesOf sim assessments query top_k
  candidates.zip (candidates.map (fun c => (sim (extractFeatures query).2).getD c.doc_index 0))

/-- Main pipeline `recommend(query, top_k, final_k)`. -/
def recommend (sim : String → List Rat) (assessments : List Assessment)
    (query : String) (top_k final_k : Nat) : Except String RankOutput :=
  if query = "" then .error "ValueError: Query must be a non-empty string"
  else
    validateAndRank sim (extractFeatures query).1
      (candidatesOf sim assessments query top_k) (extractFeatures query).2 final_k

/-- Exact reasoning string of the URL-fetch failure path. -/
def fetchFailMsg : String :=
  "Failed to fetch or parse URL."

/-- Pipeline entry `recommend_from_url`: the text-fetch collaborator is a parameter
returning `none` on a request failure; an empty fetched text is falsy in
`if job_description_text:` and also takes the failure path. -/
def recommendFromUrl (fetch : String → Option String) (sim : String → List Rat)
    (assessments : List Assessment) (url : String) (top_k final_k : Nat) :
    Except String RankOutput :=
  match fetch url with
  | some text =>
    if text = "" then .ok ⟨[], fetchFailMsg⟩
    else recommend sim assessments text top_k final_k
  | none => .ok ⟨[], fetchFailMsg⟩

/-! ### Concrete fixtures used by the witness theorems -/

/-- Two-item catalog: a short and a long assessment. -/
def catW : List Assessment :=
  [⟨"Java 8", "java test", "u0", [], some 25⟩,
   ⟨"Slow", "desc", "u1", [], some 50⟩]

/-- Constant similarity rows for `catW`. -/
def simW : String → List Rat := fun _ => [1, 1/2]

/-- Query deriving `max_duration = 30`. -/
def qW : String := "under 30 mins Java"

/-- Output of `recommend simW catW qW 2 1`. -/
def rW : RankOutput :=
  ⟨[⟨"Java 8", "java test", "u0", [], some 25⟩],
   "Local Validation Log: Processed 2 candidates. Filtered 1 for duration. Re-ranked 1 using a multi-signal score (60% tech, 20% soft, 10% context, 10% level)."⟩

/-- Catalog whose only item has no recorded duration. -/
def catBad : List Assessment :=
  [⟨"NoDur", "desc", "u0", [], none⟩]

/-- Similarity row for the one-item catalog. -/
def simBad : String → List Rat := fun _ => [1]

/-- Catalog of two identical short assessments (used to exercise score ties). -/
def catTie : List Assessment :=
  [⟨"Java 8", "java test", "u0", [], some 25⟩,
   ⟨"Java 8", "java test", "u1", [], some 25⟩]

/-- Constant similarity rows for `catTie` (equal, forcing a score tie). -/
def simTie : String → List Rat := fun _ => [1/2, 1/2]

/-- Concrete candidate for the scoring witnesses. -/
def cFix : Candidate := ⟨⟨"Java 8", "java test", "u0", [], some 25⟩, 1, 0⟩

/-! ### Helper lemmas about the ranking loop -/

theorem isSoftSkillDoc_cases (a : Assessment) :
    isSoftSkillDoc a = 0 ∨ isSoftSkillDoc a = 1 := by
  simp only [isSoftSkillDoc]
  split_ifs <;> norm_num

theorem mkScored_candidate (f : Features) (c : Candidate) (ts : Rat) :
    (mkScored f c ts).candidate = c := rfl

/-- Every survivor of the ranking loop is the score of one of the input
pairs, and when a maximal duration is set its duration is within bound. -/
theorem rankLoop_mem {f : Features} {pairs : List (Candidate × Rat)} {scored : List Scored}
    (h : rankLoop f pairs = .ok scored) {sc : Scored} (hsc : sc ∈ scored) :
    ∃ c ts, (c, ts) ∈ pairs ∧ sc = mkScored f c ts ∧
      ∀ d : Nat, f.max_duration = some d →
        ∃ dur : Int, c.assessment.duration = some dur ∧ dur ≤ (d : Int) := by
  induction pairs generalizing scored with
  | nil =>
    unfold rankLoop at h
    injection h with h
    subst h
    simp at hsc
  | cons p rest ih =>
    obtain ⟨c, ts⟩ := p
    cases hmd : f.max_duration with
    | some maxd =>
      simp only [rankLoop, hmd] at h
      cases hdur : c.assessment.duration with
      | none => simp [hdur] at h
      | some dur =>
        simp only [hdur] at h
        by_cases hgt : dur > (maxd : Int)
        · rw [if_pos hgt] at h
          obtain ⟨c', ts', hmem, heq, hdb⟩ := ih h hsc
          exact ⟨c', ts', List.mem_cons_of_mem _ hmem, heq,
            fun d hd => hdb d (hmd.trans hd)⟩
        · rw [if_neg hgt] at h
          cases hr : rankLoop f rest with
          | error e => simp [hr] at h
          | ok tail =>
            simp only [hr] at h
            injection h with h
            subst h
            rcases List.mem_cons.mp hsc with hsc | hsc
            · refine ⟨c, ts, List.mem_cons_self _ _, hsc, fun d hd => ?_⟩
              injection hd with hd
              subst hd
              exact ⟨dur, hdur, le_of_not_lt hgt⟩
            · obtain ⟨c', ts', hmem, heq, hdb⟩ := ih hr hsc
              exact ⟨c', ts', List.mem_cons_of_mem _ hmem, heq,
                fun d hd => hdb d (hmd.trans hd)⟩
    | none =>
      simp only [rankLoop, hmd] at h
      cases hr : rankLoop f rest with
      | error e => simp [hr] at h
      | ok tail =>
        simp only [hr] at h
        injection h with h
        subst h
        rcases List.mem_cons.mp hsc with hsc | hsc
        · exact ⟨c, ts, List.mem_cons_self _ _, hsc, fun d hd => Option.noConfusion hd⟩
        · obtain ⟨c', ts', hmem, heq, hdb⟩ := ih hr hsc
          exact ⟨c', ts', List.mem_cons_of_mem _ hmem, heq,
            fun d hd => hdb d (hmd.trans hd)⟩

/-- The ranking loop succeeds whenever every candidate has a duration. -/
theorem rankLoop_ok (f : Features) {pairs : List (Candidate × Rat)}
    (hdur : ∀ c ts, ((c : Candidate), (ts : Rat)) ∈ pairs → c.assessment.duration.isSome) :
    ∃ scored, rankLoop f pairs = .ok scored := by
  induction pairs with
  | nil => exact ⟨[], rfl⟩
  | cons p rest ih =>
    obtain ⟨c, ts⟩ := p
    obtain ⟨tail, htail⟩ := ih (fun c' ts' h => hdur c' ts' (List.mem_cons_of_mem _ h))
    have hc := hdur c ts (List.mem_cons_self _ _)
    cases hdc : c.assessment.duration with
    | none => rw [hdc] at hc; exact absurd hc (by simp)
    | some dur =>
      cases hmd : f.max_duration with
      | some maxd =>
        by_cases hgt : dur > (maxd : Int)
        · exact ⟨tail, by simp only [rankLoop, hmd, hdc, if_pos hgt]; exact htail⟩
        · exact ⟨mkScored f c ts :: tail, by
            simp only [rankLoop, hmd, hdc, if_neg hgt, htail]⟩
      | none =>
        exact ⟨mkScored f c ts :: tail, by simp only [rankLoop, hmd, htail]⟩

/-! ### Helper lemmas about retrieval -/

theorem mem_topIndices_lt {s : List Rat} {k i : Nat} (h : i ∈ topIndices s k) :
    i < s.length := by
  unfold topIndices at h
  have h1 : i ∈ (argsortAsc s).reverse := (List.take_sublist _ _).subset h
  rw [List.mem_reverse] at h1
  have h2 : i ∈ List.range s.length := (List.perm_insertionSort _ _).subset h1
  exact List.mem_range.mp h2

theorem mem_keys_insertOrMax {m : List (Nat × Rat)} {i : Nat} {s : Rat} {j : Nat}
    (h : j ∈ (insertOrMax m i s).map Prod.fst) : j ∈ m.map Prod.fst ∨ j = i := by
  unfold insertOrMax at h
  split at h
  · left
    rw [List.map_map] at h
    have : m.map (Prod.fst ∘ fun p => if p.1 == i then (p.1, max p.2 s) else p) =
        m.map Prod.fst := by
      apply List.map_congr_left
      intro p _
      by_cases hp : p.1 = i <;> simp [hp]
    rwa [this] at h
  · rw [List.map_append] at h
    rcases List.mem_append.mp h with h | h
    · exact Or.inl h
    · simp at h
      exact Or.inr h

theorem mem_keys_foldIns {sims : List Rat} (is : List Nat) (m : List (Nat × Rat)) {j : Nat}
    (h : j ∈ ((is.foldl (fun acc idx => insertOrMax acc idx (sims.getD idx 0)) m).map
      Prod.fst)) :
    j ∈ m.map Prod.fst ∨ j ∈ is := by
  induction is generalizing m with
  | nil => exact Or.inl h
  | cons i t ih =>
    rcases ih _ h with h' | h'
    · rcases mem_keys_insertOrMax h' with h'' | h''
      · exact Or.inl h''
      · exact Or.inr (by simp [h''])
    · exact Or.inr (List.mem_cons_of_mem _ h')

theorem mem_keys_runPass {m : List (Nat × Rat)} {sims : List Rat} {k j : Nat}
    (h : j ∈ (runPass m sims k).map Prod.fst) :
    j ∈ m.map Prod.fst ∨ j ∈ topIndices sims k := by
  unfold runPass at h
  exact mem_keys_foldIns _ _ h

theorem mem_keys_runPasses {passes : List (List Rat × Nat)} {m : List (Nat × Rat)} {j : Nat}
    (h : j ∈ (runPasses m passes).map Prod.fst) :
    j ∈ m.map Prod.fst ∨ ∃ p ∈ passes, j ∈ topIndices p.1 p.2 := by
  induction passes generalizing m with
  | nil => exact Or.inl h
  | cons p t ih =>
    rcases ih h with h' | ⟨p', hp', hj⟩
    · rcases mem_keys_runPass h' with h'' | h''
      · exact Or.inl h''
      · exact Or.inr ⟨p, List.mem_cons_self _ _, h''⟩
    · exact Or.inr ⟨p', List.mem_cons_of_mem _ hp', hj⟩

/-- Under the embedding-matrix/catalog row parity invariant, every key of
the candidate map indexes into the catalog. -/
theorem retrieveCandidates_key_lt {sim : String → List Rat} {tqs : List String}
    {q : String} {tk : Nat} {cat : List Assessment}
    (hlen : ∀ s', (sim s').length = cat.length)
    {j : Nat} {v : Rat} (h : (j, v) ∈ retrieveCandidates sim tqs q tk) : j < cat.length := by
  have hk : j ∈ (retrieveCandidates sim tqs q tk).map Prod.fst :=
    List.mem_map_of_mem _ h
  rcases mem_keys_runPasses hk with h' | ⟨p, hp, hj⟩
  · simp at h'
  · have hlt := mem_topIndices_lt hj
    simp only [passesOf] at hp
    rcases List.mem_append.mp hp with hp | hp
    · obtain ⟨tq, _, rfl⟩ := List.mem_map.mp hp
      simpa [hlen tq] using hlt
    · simp only [List.mem_singleton] at hp
      rw [hp] at hlt
      simpa [hlen q] using hlt

/-- Every candidate of a request carries a catalog record. -/
theorem candidatesOf_assessment_mem {sim : String → List Rat} {cat : List Assessment}
    {q : String} {tk : Nat} (hlen : ∀ s', (sim s').length = cat.length)
    {c : Candidate} (h : c ∈ candidatesOf sim cat q tk) : c.assessment ∈ cat := by
  unfold candidatesOf at h
  obtain ⟨pr, hpr, rfl⟩ := List.mem_map.mp h
  obtain ⟨j, v⟩ := pr
  have hlt : j < cat.length := retrieveCandidates_key_lt hlen hpr
  have heq : cat.getD j emptyAssessment = cat[j] := by
    rw [List.getD_eq_getElem?_getD, List.getElem?_eq_getElem hlt]
    rfl
  show cat.getD j emptyAssessment ∈ cat
  rw [heq]
  exact List.getElem_mem hlt

/-! ### Lookup characterisation of the candidate map -/

/-- One max-merge step on an optional stored similarity. -/
def mergeStep (o : Option Rat) (s : Rat) : Option Rat :=
  some (o.elim s (fun v => max v s))

/-- Greatest element of a similarity list (left fold), `none` when empty. -/
def maxOfList : List Rat → Option Rat
  | [] => none
  | a :: l => some (l.foldl max a)

/-- Similarities of the passes that surfaced index `j`, in pass order. -/
def surfacedSims (passes : List (List Rat × Nat)) (j : Nat) : List Rat :=
  (passes.filter (fun p => decide (j ∈ topIndices p.1 p.2))).map (fun p => p.1.getD j 0)

theorem lookup_cons_ne {t : List (Nat × Rat)} {k i : Nat} {v : Rat} (h : i ≠ k) :
    ((k, v) :: t).lookup i = t.lookup i := by
  rw [List.lookup_cons, show (i == k) = false by simpa using h]

theorem lookup_cons_self {t : List (Nat × Rat)} {k : Nat} {v : Rat} :
    ((k, v) :: t).lookup k = some v := by
  rw [List.lookup_cons, show (k == k) = true by simp]

theorem any_key_eq_lookup_isSome (m : List (Nat × Rat)) (i : Nat) :
    (m.any fun p => p.1 == i) = (m.lookup i).isSome := by
  induction m with
  | nil => rfl
  | cons p t ih =>
    obtain ⟨k, v⟩ := p
    by_cases hk : k = i
    · subst hk
      rw [lookup_cons_self]
      simp
    · rw [lookup_cons_ne (Ne.symm hk)]
      simp [List.any_cons, hk, ih]

theorem keys_map_update (m : List (Nat × Rat)) (i : Nat) (s : Rat) :
    ((m.map (fun p => if p.1 == i then (p.1, max p.2 s) else p)).map Prod.fst) =
      m.map Prod.fst := by
  rw [List.map_map]
  apply List.map_congr_left
  intro p _
  by_cases hp : p.1 = i <;> simp [hp]

theorem lookup_map_update (m : List (Nat × Rat)) (i j : Nat) (s : Rat) :
    (m.map (fun p => if p.1 == i then (p.1, max p.2 s) else p)).lookup j =
      if j = i then (m.lookup i).map (fun v => max v s) else m.lookup j := by
  induction m with
  | nil => simp [List.lookup_nil]
  | cons p t ih =>
    obtain ⟨k, v⟩ := p
    rw [List.map_cons]
    by_cases hk : k = i
    · subst hk
      rw [show (if ((k, v) : Nat × Rat).1 == k then (((k, v) : Nat × Rat).1, max v s)
          else (k, v)) = (k, max v s) by simp]
      by_cases hj : j = k
      · subst hj
        rw [lookup_cons_self, lookup_cons_self, if_pos rfl]
        rfl
      · rw [lookup_cons_ne hj, lookup_cons_ne hj, ih, if_neg hj, if_neg hj]
    · rw [show (if ((k, v) : Nat × Rat).1 == i then (((k, v) : Nat × Rat).1, max v s)
          else (k, v)) = (k, v) by simp [hk]]
      by_cases hj : j = k
      · subst hj
        rw [if_neg hk, lookup_cons_self, lookup_cons_self]
      · rw [lookup_cons_ne hj, lookup_cons_ne hj, ih]
        by_cases hji : j = i
        · rw [if_pos hji, if_pos hji,
            lookup_cons_ne (show i ≠ k from fun h => hk h.symm)]
        · rw [if_neg hji, if_neg hji]

theorem lookup_append_single (m : List (Nat × Rat)) (i j : Nat) (s : Rat)
    (hni : m.lookup i = none) :
    (m ++ [(i, s)]).lookup j = if j = i then some s else m.lookup j := by
  induction m with
  | nil =>
    by_cases hj : j = i
    · subst hj
      rw [List.nil_append, lookup_cons_self, if_pos rfl]
    · rw [List.nil_append, lookup_cons_ne hj, if_neg hj]
  | cons p t ih =>
    obtain ⟨k, v⟩ := p
    have hik : i ≠ k := by
      intro h
      subst h
      rw [lookup_cons_self] at hni
      exact Option.noConfusion hni
    rw [lookup_cons_ne hik] at hni
    by_cases hj : j = k
    · subst hj
      have hji : j ≠ i := Ne.symm hik
      rw [List.cons_append, lookup_cons_self, lookup_cons_self, if_neg hji]
    · rw [List.cons_append, lookup_cons_ne hj, lookup_cons_ne hj, ih hni]

theorem lookup_insertOrMax (m : List (Nat × Rat)) (i j : Nat) (s : Rat) :
    (insertOrMax m i s).lookup j =
      if j = i then some ((m.lookup i).elim s (fun v => max v s)) else m.lookup j := by
  unfold insertOrMax
  by_cases hmem : (m.any fun p => p.1 == i) = true
  · rw [if_pos hmem, lookup_map_update]
    rw [any_key_eq_lookup_isSome] at hmem
    obtain ⟨v, hv⟩ := Option.isSome_iff_exists.mp hmem
    rw [hv]
    by_cases hj : j = i <;> simp [hj]
  · rw [if_neg hmem]
    rw [any_key_eq_lookup_isSome] at hmem
    have hni : m.lookup i = none := by
      cases h : m.lookup i
      · rfl
      · rw [h] at hmem; simp at hmem
    rw [lookup_append_single _ _ _ _ hni, hni]
    by_cases hj : j = i <;> simp [hj]

theorem lookup_foldIns_not_mem {sims : List Rat} {is : List Nat}
    {m : List (Nat × Rat)} {j : Nat} (hj : j ∉ is) :
    ((is.foldl (fun acc idx => insertOrMax acc idx (sims.getD idx 0)) m).lookup j) =
      m.lookup j := by
  induction is generalizing m with
  | nil => rfl
  | cons i t ih =>
    have hji : j ≠ i := fun h => hj (h ▸ List.mem_cons_self _ _)
    rw [List.foldl_cons, ih (fun h => hj (List.mem_cons_of_mem _ h)),
      lookup_insertOrMax, if_neg hji]

theorem lookup_foldIns {sims : List Rat} {is : List Nat} (hnd : is.Nodup)
    (m : List (Nat × Rat)) (j : Nat) :
    ((is.foldl (fun acc idx => insertOrMax acc idx (sims.getD idx 0)) m).lookup j) =
      if j ∈ is then
        some ((m.lookup j).elim (sims.getD j 0) (fun v => max v (sims.getD j 0)))
      else m.lookup j := by
  induction is generalizing m with
  | nil => simp
  | cons i t ih =>
    obtain ⟨hnin, hndt⟩ := List.nodup_cons.mp hnd
    rw [List.foldl_cons]
    by_cases hji : j = i
    · subst hji
      rw [lookup_foldIns_not_mem hnin, lookup_insertOrMax, if_pos rfl,
        if_pos (List.mem_cons_self _ _)]
    · rw [ih hndt]
      by_cases hjt : j ∈ t
      · rw [if_pos hjt, if_pos (List.mem_cons_of_mem _ hjt),
          lookup_insertOrMax, if_neg hji]
      · rw [if_neg hjt, lookup_insertOrMax, if_neg hji,
          if_neg (by simp [hji, hjt])]

theorem nodup_topIndices (s : List Rat) (k : Nat) : (topIndices s k).Nodup := by
  unfold topIndices
  refine List.Nodup.sublist (List.take_sublist _ _) ?_
  rw [List.nodup_reverse]
  exact ((List.perm_insertionSort _ _).nodup_iff).mpr (List.nodup_range _)

theorem lookup_runPass (m : List (Nat × Rat)) (sims : List Rat) (k j : Nat) :
    (runPass m sims k).lookup j =
      if j ∈ topIndices sims k then
        some ((m.lookup j).elim (sims.getD j 0) (fun v => max v (sims.getD j 0)))
      else m.lookup j := by
  unfold runPass
  exact lookup_foldIns (nodup_topIndices sims k) m j

theorem surfacedSims_cons_pos {p : List Rat × Nat} {passes : List (List Rat × Nat)}
    {j : Nat} (hs : j ∈ topIndices p.1 p.2) :
    surfacedSims (p :: passes) j = p.1.getD j 0 :: surfacedSims passes j := by
  unfold surfacedSims
  rw [List.filter_cons, if_pos (by simpa using hs), List.map_cons]

theorem surfacedSims_cons_neg {p : List Rat × Nat} {passes : List (List Rat × Nat)}
    {j : Nat} (hs : j ∉ topIndices p.1 p.2) :
    surfacedSims (p :: passes) j = surfacedSims passes j := by
  unfold surfacedSims
  rw [List.filter_cons, if_neg (by simpa using hs)]

theorem lookup_runPasses (passes : List (List Rat × Nat)) (m : List (Nat × Rat)) (j : Nat) :
    (runPasses m passes).lookup j =
      (surfacedSims passes j).foldl mergeStep (m.lookup j) := by
  induction passes generalizing m with
  | nil => rfl
  | cons p t ih =>
    show (runPasses (runPass m p.1 p.2) t).lookup j = _
    rw [ih]
    by_cases hs : j ∈ topIndices p.1 p.2
    · rw [lookup_runPass, if_pos hs, surfacedSims_cons_pos hs, List.foldl_cons]
      rfl
    · rw [lookup_runPass, if_neg hs, surfacedSims_cons_neg hs]

theorem foldl_mergeStep_some (l : List Rat) (v : Rat) :
    l.foldl mergeStep (some v) = some (l.foldl max v) := by
  induction l generalizing v with
  | nil => rfl
  | cons a t ih => simp only [List.foldl_cons, mergeStep, Option.elim]; exact ih _

theorem foldl_mergeStep_none (l : List Rat) :
    l.foldl mergeStep none = maxOfList l := by
  cases l with
  | nil => rfl
  | cons a t =>
    show t.foldl mergeStep (mergeStep none a) = _
    rw [show mergeStep none a = some a from rfl, foldl_mergeStep_some]
    rfl

theorem nodup_keys_insertOrMax {m : List (Nat × Rat)} {i : Nat} {s : Rat}
    (h : (m.map Prod.fst).Nodup) : ((insertOrMax m i s).map Prod.fst).Nodup := by
  unfold insertOrMax
  by_cases hmem : (m.any fun p => p.1 == i) = true
  · rw [if_pos hmem, keys_map_update]
    exact h
  · rw [if_neg hmem, List.map_append]
    have hni : i ∉ m.map Prod.fst := by
      intro hin
      obtain ⟨p, hp, hfst⟩ := List.mem_map.mp hin
      have : (m.any fun p => p.1 == i) = true :=
        List.any_eq_true.mpr ⟨p, hp, by simp [hfst]⟩
      exact hmem this
    simp [List.nodup_append, h, hni]

theorem nodup_keys_foldIns {sims : List Rat} (is : List Nat) (m : List (Nat × Rat))
    (h : (m.map Prod.fst).Nodup) :
    (((is.foldl (fun acc idx => insertOrMax acc idx (sims.getD idx 0)) m)).map
      Prod.fst).Nodup := by
  induction is generalizing m with
  | nil => exact h
  | cons i t ih =>
    rw [List.foldl_cons]
    exact ih _ (nodup_keys_insertOrMax h)

theorem nodup_keys_runPasses (passes : List (List Rat × Nat)) (m : List (Nat × Rat))
    (h : (m.map Prod.fst).Nodup) : ((runPasses m passes).map Prod.fst).Nodup := by
  induction passes generalizing m with
  | nil => exact h
  | cons p t ih =>
    show ((runPasses (runPass m p.1 p.2) t).map Prod.fst).Nodup
    exact ih _ (nodup_keys_foldIns _ _ h)

theorem lookup_eq_of_mem_nodup {m : List (Nat × Rat)} (h : (m.map Prod.fst).Nodup)
    {k : Nat} {v : Rat} (hm : (k, v) ∈ m) : m.lookup k = some v := by
  induction m with
  | nil => simp at hm
  | cons p t ih =>
    obtain ⟨k', v'⟩ := p
    obtain ⟨hk', hndt⟩ := List.nodup_cons.mp h
    rcases List.mem_cons.mp hm with hm1 | hm1
    · injection hm1 with h1 h2
      subst h1
      subst h2
      exact lookup_cons_self
    · have hk : k ≠ k' := by
        intro hkk
        subst hkk
        exact hk' (List.mem_map.mpr ⟨(k, v), hm1, rfl⟩)
      rw [lookup_cons_ne hk]
      exact ih hndt hm1

/-! ### Stability of the insertion sort model -/

theorem filter_orderedInsert {α : Type} (r : α → α → Prop) [DecidableRel r] (p : α → Bool)
    (hp : ∀ a b, p a = true → p b = true → r a b) (x : α) (l : List α) :
    (l.orderedInsert r x).filter p = if p x then x :: l.filter p else l.filter p := by
  induction l with
  | nil => simp [List.orderedInsert, List.filter_cons]
  | cons b t ih =>
    by_cases hrxb : r x b
    · simp only [List.orderedInsert, if_pos hrxb]
      cases hpx : p x <;> simp [List.filter_cons, hpx]
    · simp only [List.orderedInsert, if_neg hrxb]
      cases hpx : p x with
      | true =>
        have hpb : p b = false := by
          cases hpb : p b
          · rfl
          · exact absurd (hp x b hpx hpb) hrxb
        simp [List.filter_cons, hpb, hpx, ih]
      | false =>
        cases hpb : p b <;> simp [List.filter_cons, hpb, hpx, ih]

theorem filter_insertionSort {α : Type} (r : α → α → Prop) [DecidableRel r] (p : α → Bool)
    (hp : ∀ a b, p a = true → p b = true → r a b) (l : List α) :
    (List.insertionSort r l).filter p = l.filter p := by
  induction l with
  | nil => rfl
  | cons a t ih =>
    simp only [List.insertionSort]
    rw [filter_orderedInsert r p hp]
    cases hpa : p a <;> simp [List.filter_cons, hpa, ih]

/-! ### Order of the retrieval hit lists -/

/-- Strict lexicographic order "smaller similarity, or equal similarity and
smaller index". -/
def lexAsc (s : List Rat) (i j : Nat) : Prop :=
  s.getD i 0 < s.getD j 0 ∨ (s.getD i 0 = s.getD j 0 ∧ i < j)

/-- Modelled from the spec: take "the `k_per_query` indices of highest
similarity (descending, ties broken by index order for determinism)" — a
descending sort of the index range where tied similarities keep ascending
index order, truncated to `k`. -/
def specDescLe (s : List Rat) (i j : Nat) : Prop :=
  s.getD j 0 < s.getD i 0 ∨ (s.getD i 0 = s.getD j 0 ∧ i ≤ j)

instance (s : List Rat) : DecidableRel (specDescLe s) :=
  fun _ _ => inferInstanceAs (Decidable (_ ∨ _))

/-- Modelled from the spec: the hit list the spec describes. -/
def claimedTopIndices (s : List Rat) (k : Nat) : List Nat :=
  (List.insertionSort (specDescLe s) (List.range s.length)).take k

theorem pairwise_lexAsc_argsortAsc (s : List Rat) :
    (argsortAsc s).Pairwise (lexAsc s) := by
  have hsorted : (argsortAsc s).Pairwise (simLe s) :=
    List.sorted_insertionSort (simLe s) (List.range s.length)
  rw [List.pairwise_iff_forall_sublist]
  intro a b hsub
  have hle : simLe s a b := List.pairwise_iff_forall_sublist.mp hsorted hsub
  rcases lt_or_eq_of_le hle with hlt | heq
  · exact Or.inl hlt
  · refine Or.inr ⟨heq, ?_⟩
    have hfi : [a, b].filter (fun i => decide (s.getD i 0 = s.getD a 0)) = [a, b] := by
      simp only [List.filter_cons, decide_eq_true_eq, heq.symm, if_pos rfl,
        List.filter_nil, if_true]
    have hp : ∀ x y : Nat, (fun i => decide (s.getD i 0 = s.getD a 0)) x = true →
        (fun i => decide (s.getD i 0 = s.getD a 0)) y = true → simLe s x y := by
      intro x y hx hy
      simp only [decide_eq_true_eq] at hx hy
      unfold simLe
      rw [hx, hy]
    have h1 : List.Sublist [a, b]
        ((argsortAsc s).filter (fun i => decide (s.getD i 0 = s.getD a 0))) := by
      rw [← hfi]
      exact hsub.filter _
    unfold argsortAsc at h1
    rw [filter_insertionSort (simLe s) _ hp] at h1
    have h2 : ((List.range s.length).filter
        (fun i => decide (s.getD i 0 = s.getD a 0))).Pairwise (· < ·) :=
      List.Pairwise.sublist (List.filter_sublist _) (List.pairwise_lt_range _)
    exact List.pairwise_iff_forall_sublist.mp h2 h1

theorem pairwise_lexDesc_topIndices (s : List Rat) (k : Nat) :
    (topIndices s k).Pairwise (fun i j => lexAsc s j i) := by
  unfold topIndices
  refine List.Pairwise.sublist (List.take_sublist _ _) ?_
  rw [List.pairwise_reverse]
  exact pairwise_lexAsc_argsortAsc s

theorem mem_reverse_argsortAsc {s : List Rat} {j : Nat} (h : j < s.length) :
    j ∈ (argsortAsc s).reverse := by
  rw [List.mem_reverse]
  exact ((List.perm_insertionSort (simLe s) (List.range s.length)).mem_iff).mpr
    (List.mem_range.mpr h)

theorem topIndices_complete {s : List Rat} {k : Nat} {i j : Nat}
    (hi : i ∈ topIndices s k) (hj : j < s.length) (hjn : j ∉ topIndices s k) :
    lexAsc s j i := by
  have hfull : ((argsortAsc s).reverse).Pairwise (fun a b => lexAsc s b a) := by
    rw [List.pairwise_reverse]
    exact pairwise_lexAsc_argsortAsc s
  have hmem : j ∈ (argsortAsc s).reverse := mem_reverse_argsortAsc hj
  rw [← List.take_append_drop k ((argsortAsc s).reverse)] at hfull hmem
  obtain ⟨-, -, hcross⟩ := List.pairwise_append.mp hfull
  rcases List.mem_append.mp hmem with hjt | hjd
  · exact absurd hjt hjn
  · exact hcross i hi j hjd

/-! ### Claim theorems -/

/-- C6: the query planner splits its input on `,` or the word `and`
(case-insensitive), trims each piece and drops empty pieces; it never
returns an empty sequence, returning the input unchanged as a one-element
list when every piece is empty; in particular `"Python, SQL and JavaScript"`
maps to exactly `["Python", "SQL", "JavaScript"]`. -/
theorem parseTechQueries_spec :
    parseTechQueries "Python, SQL and JavaScript" = ["Python", "SQL", "JavaScript"] ∧
    (∀ s : String, parseTechQueries s ≠ []) ∧
    (∀ s : String,
      ((splitDelims [] s.toList).map trimChars).filter (fun p => !p.isEmpty) = [] →
        parseTechQueries s = [s]) := by
  refine ⟨by decide, fun s => ?_, fun s h => ?_⟩
  · intro hcontra
    unfold parseTechQueries at hcontra
    by_cases hp : (((splitDelims [] s.toList).map trimChars).filter (fun p => !p.isEmpty)).isEmpty
    · rw [if_pos hp] at hcontra
      exact absurd hcontra (by simp)
    · rw [if_neg hp] at hcontra
      rw [List.map_eq_nil_iff] at hcontra
      rw [hcontra] at hp
      exact hp rfl
  · have hc : (((splitDelims [] s.toList).map trimChars).filter
        (fun p => !p.isEmpty)).isEmpty = true := by rw [h]; rfl
    unfold parseTechQueries
    rw [if_pos hc]

/-- Closed instance of C6's conditional part: the empty query splits into no
non-empty pieces, so the planner returns the original input. -/
theorem parseTechQueries_spec_witness : parseTechQueries "" = [""] :=
  parseTechQueries_spec.2.2 "" (by decide)

/-- C7: when the text fetch yields no text (request failure, modelled as
`none`, or empty content), `recommend_from_url` returns normally (`ok`, it
does not raise) with an empty recommendation list and a reasoning string
stating the fetch failed. -/
theorem recommendFromUrl_fetch_failure (fetch : String → Option String)
    (sim : String → List Rat) (assessments : List Assessment) (url : String)
    (top_k final_k : Nat)
    (h : fetch url = none ∨ fetch url = some "") :
    ∃ r : RankOutput,
      recommendFromUrl fetch sim assessments url top_k final_k = .ok r ∧
      r.recommendations = [] ∧ r.reasoning = fetchFailMsg := by
  refine ⟨⟨[], fetchFailMsg⟩, ?_, rfl, rfl⟩
  rcases h with h | h <;> simp [recommendFromUrl, h]

/-- Closed instance of C7 at a fetch that fails. -/
theorem recommendFromUrl_fetch_failure_witness :
    ∃ r : RankOutput,
      recommendFromUrl (fun _ => none) simW catW "http://x" 2 1 = .ok r ∧
      r.recommendations = [] ∧ r.reasoning = fetchFailMsg :=
  recommendFromUrl_fetch_failure (fun _ => none) simW catW "http://x" 2 1 (Or.inl rfl)

/-- C8: `recommend` is a pure function of the similarity collaborator, the
catalog and its arguments; two calls with identical arguments return the
same value, in particular the same ordered recommendation list and the same
reasoning string. -/
theorem recommend_deterministic (sim : String → List Rat) (assessments : List Assessment)
    (query : String) (top_k final_k : Nat) :
    recommend sim assessments query top_k final_k =
      recommend sim assessments query top_k final_k ∧
    ∀ r1 r2 : RankOutput,
      recommend sim assessments query top_k final_k = .ok r1 →
      recommend sim assessments query top_k final_k = .ok r2 →
      r1.recommendations = r2.recommendations ∧ r1.reasoning = r2.reasoning := by
  refine ⟨rfl, fun r1 r2 h1 h2 => ?_⟩
  rw [h1] at h2
  injection h2 with h
  subst h
  exact ⟨rfl, rfl⟩

/-- Closed instance of C8 on a concrete run. -/
theorem recommend_deterministic_witness :
    rW.recommendations = rW.recommendations ∧ rW.reasoning = rW.reasoning :=
  (recommend_deterministic simW catW qW 2 1).2 rW rW
    (by with_unfolding_all rfl) (by with_unfolding_all rfl)

/-- C3: every candidate surviving the hard filter is scored as
`tech_sim*0.60 + soft_skill*0.20 + context_sim*0.10 + level*0.10`, and the
result is multiplied by exactly `1.10` precisely when
`soft_skill_requested` holds and the candidate's soft-skill flag is `1.0`
(multiplicative, compounding with the weighted sum). -/
theorem final_score_formula :
    (∀ (f : Features) (c : Candidate) (ts : Rat),
      (mkScored f c ts).final_score =
        (if f.soft_skill_requested ∧ isSoftSkillDoc c.assessment = 1 then
          (ts * 0.60 + isSoftSkillDoc c.assessment * 0.20 +
            c.context_similarity * 0.10 + levelScore f c.assessment * 0.10) * 1.10
        else
          ts * 0.60 + isSoftSkillDoc c.assessment * 0.20 +
            c.context_similarity * 0.10 + levelScore f c.assessment * 0.10)) ∧
    (∀ (f : Features) (pairs : List (Candidate × Rat)) (scored : List Scored),
      rankLoop f pairs = .ok scored →
      ∀ sc ∈ scored, ∃ c ts, (c, ts) ∈ pairs ∧ sc = mkScored f c ts) := by
  constructor
  · intro f c ts
    simp only [mkScored]
    rcases isSoftSkillDoc_cases c.assessment with h | h <;> rw [h] <;> norm_num
  · intro f pairs scored h sc hsc
    obtain ⟨c, ts, hmem, heq, -⟩ := rankLoop_mem h hsc
    exact ⟨c, ts, hmem, heq⟩

/-- Closed instance of C3's loop part on a one-candidate run. -/
theorem final_score_formula_witness :
    ∃ c ts, (c, ts) ∈ [(cFix, (1 : Rat)/2)] ∧
      mkScored ⟨false, "mid", none⟩ cFix (1/2) = mkScored ⟨false, "mid", none⟩ c ts :=
  final_score_formula.2 ⟨false, "mid", none⟩ [(cFix, 1/2)]
    [mkScored ⟨false, "mid", none⟩ cFix (1/2)] rfl
    (mkScored ⟨false, "mid", none⟩ cFix (1/2)) (List.mem_singleton_self _)

/-- C1: whenever a non-null `max_duration` was derived from the query, every
recommendation returned by `recommend` has a duration within that bound —
candidates exceeding it are excluded before scoring and never reach the
output. -/
theorem duration_hard_filter (sim : String → List Rat) (assessments : List Assessment)
    (query : String) (top_k final_k : Nat) (d : Nat) (r : RankOutput)
    (hd : (extractFeatures query).1.max_duration = some d)
    (hok : recommend sim assessments query top_k final_k = .ok r) :
    ∀ a ∈ r.recommendations, ∃ dur : Int, a.duration = some dur ∧ dur ≤ (d : Int) := by
  intro a ha
  unfold recommend at hok
  by_cases hq : query = ""
  · rw [if_pos hq] at hok
    exact absurd hok (by simp)
  · rw [if_neg hq] at hok
    simp only [validateAndRank] at hok
    split at hok
    · exact absurd hok (by simp)
    · rename_i scored heq
      injection hok with hok
      subst hok
      obtain ⟨sc, hsc, rfl⟩ := List.mem_map.mp ha
      have hsc1 : sc ∈ List.insertionSort scoreGe scored :=
        (List.take_sublist _ _).subset hsc
      have hsc2 : sc ∈ scored := (List.perm_insertionSort scoreGe scored).subset hsc1
      obtain ⟨c, ts, hmem, hsceq, hdb⟩ := rankLoop_mem heq hsc2
      obtain ⟨dur, hdur, hle⟩ := hdb d hd
      rw [hsceq, mkScored_candidate]
      exact ⟨dur, hdur, hle⟩

/-- Closed instance of C1: the surviving recommendation of the concrete run
(derived bound 30) has duration 25 ≤ 30. -/
theorem duration_hard_filter_witness :
    ∃ dur : Int,
      (Assessment.mk "Java 8" "java test" "u0" [] (some 25)).duration = some dur ∧
        dur ≤ (30 : Int) :=
  duration_hard_filter simW catW qW 2 1 30 rW (by with_unfolding_all rfl)
    (by with_unfolding_all rfl) ⟨"Java 8", "java test", "u0", [], some 25⟩
    (by with_unfolding_all exact List.mem_singleton_self _)

/-- C10: the duration comparison is unguarded.  Under the data-model
preconditions (row parity and a present duration on every catalog record)
`recommend` never faults; but a candidate with an unknown (`None`) duration
reaching the comparison with a derived `max_duration` makes `recommend`
raise a `TypeError` instead of filtering or keeping the candidate. -/
theorem duration_comparison_unguarded :
    (∀ (sim : String → List Rat) (assessments : List Assessment) (query : String)
        (top_k final_k : Nat),
      query ≠ "" →
      (∀ s', (sim s').length = assessments.length) →
      (∀ a ∈ assessments, a.duration.isSome) →
      ∃ r, recommend sim assessments query top_k final_k = .ok r) ∧
    recommend simBad catBad qW 2 1 = .error durTypeErr := by
  constructor
  · intro sim cat query tk fk hq hlen hdur
    have hpair : ∀ c ts, ((c : Candidate), (ts : Rat)) ∈ pairsOf sim cat query tk →
        c.assessment.duration.isSome := by
      intro c ts hmem
      simp only [pairsOf] at hmem
      have hc : c ∈ candidatesOf sim cat query tk := (List.of_mem_zip hmem).1
      exact hdur _ (candidatesOf_assessment_mem hlen hc)
    obtain ⟨scored, hscored⟩ := rankLoop_ok (extractFeatures query).1 hpair
    simp only [pairsOf] at hscored
    exact ⟨_, by
      unfold recommend
      rw [if_neg hq]
      simp only [validateAndRank]
      rw [hscored]⟩
  · with_unfolding_all rfl

/-- Closed instance of C10's safe part on a concrete well-formed run. -/
theorem duration_comparison_unguarded_witness :
    ∃ r, recommend simW catW qW 2 1 = .ok r :=
  duration_comparison_unguarded.1 simW catW qW 2 1 (by decide)
    (fun _ => rfl) (by decide)

/-- Success shape of `recommend` once the ranking loop succeeds. -/
theorem recommend_ok_shape {sim : String → List Rat} {cat : List Assessment}
    {query : String} {tk : Nat} (fk : Nat) {scored : List Scored}
    (hq : query ≠ "")
    (hscored : rankLoop (extractFeatures query).1 (pairsOf sim cat query tk) = .ok scored) :
    ∃ r, recommend sim cat query tk fk = .ok r ∧
      r.recommendations = ((List.insertionSort scoreGe scored).take fk).map
        (fun sc => sc.candidate.assessment) := by
  simp only [pairsOf] at hscored
  unfold recommend
  rw [if_neg hq]
  simp only [validateAndRank]
  rw [hscored]
  exact ⟨_, rfl, rfl⟩

/-- C4: for a non-empty query and `final_k ∈ [1, 10]`, under the data-model
invariants (row parity, present durations, non-empty names and URLs),
`recommend` returns normally with at most `final_k` records; the internal
`final_score` / `context_similarity` / `doc_index` keys are stripped, so
each record is exactly a catalog `Assessment`, with a non-empty name and
URL. -/
theorem recommend_output_shape (sim : String → List Rat) (assessments : List Assessment)
    (query : String) (top_k final_k : Nat)
    (hq : query ≠ "") (hfk : 1 ≤ final_k ∧ final_k ≤ 10)
    (hlen : ∀ s', (sim s').length = assessments.length)
    (hdur : ∀ a ∈ assessments, a.duration.isSome)
    (hfields : ∀ a ∈ assessments, a.name ≠ "" ∧ a.url ≠ "") :
    ∃ r, recommend sim assessments query top_k final_k = .ok r ∧
      r.recommendations.length ≤ final_k ∧
      (∃ scored,
        rankLoop (extractFeatures query).1 (pairsOf sim assessments query top_k) =
          .ok scored ∧
        r.recommendations = ((List.insertionSort scoreGe scored).take final_k).map
          (fun sc => sc.candidate.assessment)) ∧
      ∀ a ∈ r.recommendations, a ∈ assessments ∧ a.name ≠ "" ∧ a.url ≠ "" := by
  have hpair : ∀ c ts, ((c, ts) : Candidate × Rat) ∈ pairsOf sim assessments query top_k →
      c.assessment.duration.isSome := by
    intro c ts hmem
    simp only [pairsOf] at hmem
    exact hdur _ (candidatesOf_assessment_mem hlen (List.of_mem_zip hmem).1)
  obtain ⟨scored, hscored⟩ := rankLoop_ok (extractFeatures query).1 hpair
  obtain ⟨r, hok, hrec⟩ := recommend_ok_shape final_k hq hscored
  refine ⟨r, hok, ?_, ⟨scored, hscored, hrec⟩, ?_⟩
  · rw [hrec, List.length_map, List.length_take]
    exact min_le_left _ _
  · intro a ha
    rw [hrec] at ha
    obtain ⟨sc, hsc, rfl⟩ := List.mem_map.mp ha
    have hsc2 : sc ∈ scored :=
      (List.perm_insertionSort scoreGe scored).subset ((List.take_sublist _ _).subset hsc)
    obtain ⟨c, ts, hmem, hsceq, -⟩ := rankLoop_mem hscored hsc2
    have hc : c ∈ candidatesOf sim assessments query top_k := by
      simp only [pairsOf] at hmem
      exact (List.of_mem_zip hmem).1
    have hca : c.assessment ∈ assessments := candidatesOf_assessment_mem hlen hc
    rw [hsceq, mkScored_candidate]
    exact ⟨hca, (hfields _ hca).1, (hfields _ hca).2⟩

/-- Closed instance of C4 on a concrete well-formed run. -/
theorem recommend_output_shape_witness :
    ∃ r, recommend simW catW qW 2 1 = .ok r ∧
      r.recommendations.length ≤ 1 ∧
      (∃ scored,
        rankLoop (extractFeatures qW).1 (pairsOf simW catW qW 2) = .ok scored ∧
        r.recommendations = ((List.insertionSort scoreGe scored).take 1).map
          (fun sc => sc.candidate.assessment)) ∧
      ∀ a ∈ r.recommendations, a ∈ catW ∧ a.name ≠ "" ∧ a.url ≠ "" :=
  recommend_output_shape simW catW qW 2 1 (by decide) (by decide)
    (fun _ => rfl) (by decide) (by decide)

/-- C9: the final ranking sort is stable with respect to retrieval order.
The output is the truncated projection of a stable descending sort of the
survivor list (which is in `all_candidates` insertion order): the sorted
list is ordered by `scoreGe`, and any two survivors with equal
`final_score` keep, in the sorted list, the relative order in which the
candidate map first surfaced them. -/
theorem ranking_sort_stable (sim : String → List Rat) (assessments : List Assessment)
    (query : String) (top_k final_k : Nat) (r : RankOutput)
    (hok : recommend sim assessments query top_k final_k = .ok r) :
    ∃ scored,
      rankLoop (extractFeatures query).1 (pairsOf sim assessments query top_k) =
        .ok scored ∧
      r.recommendations = ((List.insertionSort scoreGe scored).take final_k).map
        (fun sc => sc.candidate.assessment) ∧
      (List.insertionSort scoreGe scored).Pairwise scoreGe ∧
      ∀ a b : Scored, a.final_score = b.final_score →
        List.Sublist [a, b] scored → List.Sublist [a, b] (List.insertionSort scoreGe scored) := by
  unfold recommend at hok
  by_cases hq : query = ""
  · rw [if_pos hq] at hok
    exact absurd hok (by simp)
  · rw [if_neg hq] at hok
    simp only [validateAndRank] at hok
    split at hok
    · exact absurd hok (by simp)
    · rename_i scored heq
      injection hok with hok
      subst hok
      refine ⟨scored, by simp only [pairsOf]; exact heq, rfl,
        List.sorted_insertionSort scoreGe scored, ?_⟩
      intro a b hab hsub
      have hfi : [a, b].filter (fun x => decide (x.final_score = a.final_score)) = [a, b] := by
        simp [List.filter_cons, hab]
      have hp : ∀ x y : Scored,
          (fun z => decide (z.final_score = a.final_score)) x = true →
          (fun z => decide (z.final_score = a.final_score)) y = true → scoreGe x y := by
        intro x y hx hy
        simp only [decide_eq_true_eq] at hx hy
        exact le_of_eq (hy.trans hx.symm)
      have h1 : List.Sublist ([a, b].filter (fun x => decide (x.final_score = a.final_score)))
          (scored.filter (fun x => decide (x.final_score = a.final_score))) :=
        hsub.filter _
      rw [hfi, ← filter_insertionSort scoreGe _ hp scored] at h1
      exact h1.trans (List.filter_sublist _)

/-- C2: the candidate map holds at most one entry per catalog index
(no-duplicate keys), and after all sub-query passes and the full-query pass,
the stored `context_similarity` of every surfaced index is exactly the
maximum similarity over the passes that surfaced it (absent indices were
surfaced by no pass). -/
theorem candidate_merge_scoreMax (sim : String → List Rat) (query : String) (top_k : Nat) :
    ((retrieveCandidates sim (techQueriesOf query) query top_k).map Prod.fst).Nodup ∧
    (∀ j : Nat,
      (retrieveCandidates sim (techQueriesOf query) query top_k).lookup j =
        maxOfList (surfacedSims (passesOf sim (techQueriesOf query) query top_k) j)) ∧
    ∀ pr ∈ retrieveCandidates sim (techQueriesOf query) query top_k,
      some pr.2 =
        maxOfList (surfacedSims (passesOf sim (techQueriesOf query) query top_k) pr.1) := by
  have hnd : ((retrieveCandidates sim (techQueriesOf query) query top_k).map
      Prod.fst).Nodup :=
    nodup_keys_runPasses _ _ (by simp)
  have hlk : ∀ j : Nat,
      (retrieveCandidates sim (techQueriesOf query) query top_k).lookup j =
        maxOfList (surfacedSims (passesOf sim (techQueriesOf query) query top_k) j) := by
    intro j
    unfold retrieveCandidates
    rw [lookup_runPasses, List.lookup_nil]
    exact foldl_mergeStep_none _
  refine ⟨hnd, hlk, fun pr hpr => ?_⟩
  obtain ⟨j, v⟩ := pr
  rw [← hlk j]
  exact (lookup_eq_of_mem_nodup hnd hpr).symm

/-- C5 counterexample: at the concrete similarity row `[1, 1]` (a tie) with
`k = 2`, the code's hit list is not the spec's "descending, ties broken by
index order" list: the code yields `[1, 0]` while the claimed rule yields
`[0, 1]`.  `np.argsort(sims)[::-1]` reverses an ascending argsort, so tied
indices come out in descending index order. -/
theorem topIndices_tie_counterexample :
    topIndices [1, 1] 2 ≠ claimedTopIndices [1, 1] 2 := by
  have h1 : topIndices [1, 1] 2 = [1, 0] := by with_unfolding_all rfl
  have h2 : claimedTopIndices [1, 1] 2 = [0, 1] := by with_unfolding_all rfl
  rw [h1, h2]
  simp

/-- C5 (amended): each per-sub-query pass takes the
`k_per_query = max(10, top_k // num_subqueries + 2)` hits and the full-query
pass takes `top_k` hits; a hit list contains `min k n` pairwise-distinct
in-range indices, ordered by strictly descending similarity with ties in
*descending* index order (the reversal of a stable ascending argsort), and it
is complete: every in-range index left out is lexicographically below every
index taken. -/
theorem retrieval_topk_selection :
    (∀ (sim : String → List Rat) (tqs : List String) (query : String) (tk : Nat),
      passesOf sim tqs query tk =
        tqs.map (fun tq => (sim tq, max 10 (tk / tqs.length + 2))) ++ [(sim query, tk)]) ∧
    (∀ (s : List Rat) (k : Nat),
      (topIndices s k).length = min k s.length ∧
      (topIndices s k).Nodup ∧
      (∀ i ∈ topIndices s k, i < s.length) ∧
      (topIndices s k).Pairwise (fun i j => lexAsc s j i) ∧
      (∀ i ∈ topIndices s k, ∀ j : Nat, j < s.length → j ∉ topIndices s k →
        lexAsc s j i)) := by
  refine ⟨fun sim tqs query tk => rfl, fun s k => ⟨?_, nodup_topIndices s k,
    fun i hi => mem_topIndices_lt hi, pairwise_lexDesc_topIndices s k,
    fun i hi j hj hjn => topIndices_complete hi hj hjn⟩⟩
  unfold topIndices argsortAsc
  rw [List.length_take, List.length_reverse, List.length_insertionSort,
    List.length_range]

/-- Closed instance of C5's completeness part: in the row `[1, 1/2, 1]` with
`k = 2`, the excluded index 1 ranks lexicographically below the taken
index 2. -/
theorem retrieval_topk_selection_witness :
    lexAsc [(1 : Rat), 1/2, 1] 1 2 :=
  ((retrieval_topk_selection.2 [(1 : Rat), 1/2, 1] 2).2.2.2.2) 2
    (by
      have ht : topIndices [(1 : Rat), 1/2, 1] 2 = [2, 0] := by with_unfolding_all rfl
      rw [ht]
      decide)
    1 (by decide)
    (by
      have ht : topIndices [(1 : Rat), 1/2, 1] 2 = [2, 0] := by with_unfolding_all rfl
      rw [ht]
      decide)

/-- Closed instance of C2's per-candidate part on a concrete run: the stored
similarity of index 0 equals the maximum over the passes that surfaced it. -/
theorem candidate_merge_scoreMax_witness :
    some (1 : Rat) =
      maxOfList (surfacedSims (passesOf simW (techQueriesOf qW) qW 2) 0) :=
  (candidate_merge_scoreMax simW qW 2).2.2 (0, 1)
    (by with_unfolding_all exact List.mem_cons_self _ _)

/-- Closed instance of C9 on a run with a genuine score tie (two identical
assessments): the tied pair keeps its retrieval order. -/
theorem ranking_sort_stable_witness :
    ∃ scored,
      rankLoop (extractFeatures qW).1 (pairsOf simTie catTie qW 2) = .ok scored ∧
      (RankOutput.mk
        [⟨"Java 8", "java test", "u1", [], some 25⟩,
         ⟨"Java 8", "java test", "u0", [], some 25⟩]
        "Local Validation Log: Processed 2 candidates. Filtered 0 for duration. Re-ranked 2 using a multi-signal score (60% tech, 20% soft, 10% context, 10% level).").recommendations =
        ((List.insertionSort scoreGe scored).take 2).map
          (fun sc => sc.candidate.assessment) ∧
      (List.insertionSort scoreGe scored).Pairwise scoreGe ∧
      ∀ a b : Scored, a.final_score = b.final_score →
        List.Sublist [a, b] scored → List.Sublist [a, b] (List.insertionSort scoreGe scored) :=
  ranking_sort_stable simTie catTie qW 2 2 _ (by with_unfolding_all rfl)

end SHLRec
